import Mathlib

/-!
# Bankflow transaction ledger engine: a shallow embedding

This file embeds the core of `src/main.ts` (a bank-statement transaction
ledger) in Lean 4 and proves/refutes the specification claims about it.

Modelling conventions:
* JavaScript numbers are modelled as `ℚ` (the program only parses decimal
  notation, adds, and subtracts; no overflow- or rounding-relevant operation
  appears in the core, so exact rationals are the standard shallow embedding).
* A spreadsheet cell (`string | number | null`) is the inductive `Cell`;
  a raw row (`ExcelRow = (string | number | null)[] | null`) is
  `Option (List Cell)`.
* String algorithms are written over `List Char` so that every definition
  reduces inside the kernel; `String` wrappers sit at the boundaries.
* `Date`/`getTime` is modelled by a day count (`ℤ`): `getTime` is a strictly
  monotone affine image (86 400 000 ms per day, fixed timezone) of the day
  count, and the program only ever uses differences of `getTime` values as a
  sort comparator, so the scaling is irrelevant. The ECMAScript TimeClip is
  kept: a time beyond ±8.64e15 ms (±1e8 days) is an Invalid Date whose
  `getTime()` is `NaN`, modelled as `none`.
-/

/-! ## Characters and JS string primitives -/

/-- The whitespace characters trimmed by JS `String.prototype.trim` /
skipped by `parseInt` (ASCII part plus NBSP; other Unicode space code points
never occur in the data this program handles). -/
def jsWhitespace (c : Char) : Bool :=
  c = ' ' || c = '\t' || c = '\n' || c = '\r' ||
    c = Char.ofNat 11 || c = Char.ofNat 12 || c = Char.ofNat 160

/-- JS `String.prototype.trim` on a character list. -/
def jsTrim (l : List Char) : List Char :=
  ((l.dropWhile jsWhitespace).reverse.dropWhile jsWhitespace).reverse

/-- Numeric value of a decimal digit character. -/
def digitVal (c : Char) : Nat := c.toNat - 48

/-- Decimal digit characters folded into a natural number (most significant
first), as JS number parsing does. -/
def digitsVal (l : List Char) : Nat := l.foldl (fun a c => 10 * a + digitVal c) 0

/-- The decimal digit character for `d < 10`. -/
def dChar (d : Nat) : Char := Char.ofNat (48 + d)

/-- `s.replace(/\./g, "")`: remove every `'.'`. -/
def removeDots (l : List Char) : List Char := l.filter (fun c => c != '.')

/-- `s.replace(",", ".")`: replace the first `','` (if any) with `'.'`. -/
def replaceFirstComma : List Char → List Char
  | [] => []
  | c :: t => if c = ',' then '.' :: t else c :: replaceFirstComma t

/-- An optional leading sign; returns (isNegative, rest). -/
def parseSign : List Char → Bool × List Char
  | '+' :: t => (false, t)
  | '-' :: t => (true, t)
  | l => (false, l)

/-- Longest prefix of decimal digits, and the remainder. -/
def takeDigits (l : List Char) : List Char × List Char :=
  (l.takeWhile Char.isDigit, l.dropWhile Char.isDigit)

/-- The fractional part after the integer digits: consumes `'.' digits*`
when present. Returns (fraction digits, remainder). -/
def consumeFrac : List Char → List Char × List Char
  | '.' :: t => takeDigits t
  | l => ([], l)

/-- Integer power of ten in `ℚ`, for scientific notation. -/
def pow10 (z : ℤ) : ℚ :=
  match z with
  | Int.ofNat n => ((10 ^ n : ℕ) : ℚ)
  | Int.negSucc n => 1 / ((10 ^ (n + 1) : ℕ) : ℚ)

/-- The exponent part of a JS numeric literal. `[]` means no exponent
(exponent 0); `e`/`E` followed by an optionally signed nonempty digit run,
consuming the whole remainder, gives that exponent; anything else is a parse
failure (`none`). -/
def consumeExp : List Char → Option ℤ
  | [] => some 0
  | c :: t =>
    if c = 'e' || c = 'E' then
      let sgn := parseSign t
      let dr := takeDigits sgn.2
      if dr.1.isEmpty || !dr.2.isEmpty then none
      else some (if sgn.1 then -(digitsVal dr.1 : ℤ) else (digitsVal dr.1 : ℤ))
    else none

/-- A JS decimal numeric literal `[sign] digits [. digits] [e [sign] digits]`
(at least one mantissa digit, nothing left over), evaluated exactly in `ℚ`.
`none` plays the role of `NaN`. -/
def parseDecLit (l : List Char) : Option ℚ :=
  let sgn := parseSign l
  let ip := takeDigits sgn.2
  let fp := consumeFrac ip.2
  if ip.1.isEmpty && fp.1.isEmpty then none
  else
    match consumeExp fp.2 with
    | none => none
    | some e =>
      let mant : ℚ := ((digitsVal (ip.1 ++ fp.1) : ℕ) : ℚ) * pow10 (e - (fp.1.length : ℤ))
      some (if sgn.1 then -mant else mant)

/-- JS `Number(string)`: trim, empty means `0`, otherwise a decimal literal;
`none` plays the role of `NaN`. (The exotic literal forms `Infinity`,
`0x…`/`0o…`/`0b…`, which cannot denote a finite rational or never reach this
code, are folded into the `NaN` case.) -/
def jsNumberOfString (s : String) : Option ℚ :=
  if (jsTrim s.toList).isEmpty then some 0 else parseDecLit (jsTrim s.toList)

/-! ## JS number-to-string (for template literals and `String(x)`)

`src/main.ts` builds the dedup key with a template literal, stringifying the
`debit`/`credit` numbers. JS `Number#toString` (shortest round-trip decimal)
is injective on numbers, prints integers as plain optionally-signed digit
runs, and never emits `'|'`. The model below renders a rational with the
same three properties (and identically on integers, the only amounts the
concrete theorems below evaluate): digits of the numerator, a leading `'-'`
for negatives, and `'/' ++ denominator` for non-integers. -/

/-- Fuel-driven most-significant-first digit expansion of a positive natural
(structural recursion so the kernel can evaluate it). -/
def natCharsAux : Nat → Nat → List Char
  | 0, _ => []
  | _ + 1, 0 => []
  | fuel + 1, n + 1 => natCharsAux fuel ((n + 1) / 10) ++ [dChar ((n + 1) % 10)]

/-- Decimal digit characters of a natural number. -/
def natChars (n : Nat) : List Char := if n = 0 then ['0'] else natCharsAux n n

/-- Decimal digit characters of an integer, with a leading `'-'` when
negative. -/
def intChars (z : ℤ) : List Char :=
  if z < 0 then '-' :: natChars z.natAbs else natChars z.natAbs

/-- Stringification of a rational used for the dedup key (see the section
comment). -/
def ratChars (q : ℚ) : List Char :=
  if q.den = 1 then intChars q.num else intChars q.num ++ '/' :: natChars q.den

/-- `String(x)` / a `${x}` template on a JS number, in the model. -/
def numToString (q : ℚ) : String := (ratChars q).asString

/-- Decimal string of a natural number. -/
def natStr (n : Nat) : String := (natChars n).asString

/-- Decimal string of an integer. -/
def intStr (z : ℤ) : String := (intChars z).asString

/-! ## Cells and rows -/

/-- A spreadsheet cell: `string | number | null` (an out-of-range index,
JS `undefined`, behaves exactly like `null` in every use below, so it is
folded into `null`). -/
inductive Cell where
  | str (s : String)
  | num (q : ℚ)
  | null
deriving DecidableEq

/-- `ExcelRow = (string | number | null)[] | null`. -/
abbrev ExcelRow := Option (List Cell)

/-- `row[i]`: out-of-range gives `undefined`, modelled as `Cell.null`. -/
def cellAt (row : List Cell) (i : Nat) : Cell := row.getD i Cell.null

/-- `String(cell ?? "")`. -/
def cellText : Cell → String
  | Cell.str s => s
  | Cell.num q => numToString q
  | Cell.null => ""

/-- JS `String.prototype.toUpperCase` (ASCII; the markers searched for,
"FECHA"/"SALDO", are ASCII). -/
def upperAscii (s : String) : String := (s.toList.map Char.toUpper).asString

/-- JS `String.prototype.trim`. -/
def trimJs (s : String) : String := (jsTrim s.toList).asString

/-- Substring containment on character lists (JS `String.prototype.includes`). -/
def listContains (l pat : List Char) : Bool :=
  (List.range (l.length + 1)).any (fun i => pat.isPrefixOf (l.drop i))

/-- JS `s.includes(pat)`. -/
def containsSub (s pat : String) : Bool := listContains s.toList pat.toList

/-! ## Value parsers (`parseMoney`, `parseExcelDate`) -/

/-- `parseMoney` from `src/main.ts`:
`null → 0`; a number is returned as-is; a string has all `'.'` removed and
its first `','` turned into `'.'`, then is fed to `Number(..)`, and `|| 0`
turns a failed parse (`NaN`, falsy) — and `±0` itself — into `0`. -/
def parseMoney : Cell → ℚ
  | Cell.null => 0
  | Cell.num q => q
  | Cell.str s =>
    match jsNumberOfString (replaceFirstComma (removeDots s.toList)).asString with
    | none => 0
    | some q => q

/-! ### Calendar arithmetic for `Date` and the date-serial decoder -/

/-- Days from the civil epoch 1970-01-01 to `y-m-d` (`m ∈ 1..12`; `d` may be
any integer, counting on from the first of the month), the standard
days-from-civil algorithm on `ℤ` with floor division. -/
def daysFromCivil (y m d : ℤ) : ℤ :=
  let y' := if m ≤ 2 then y - 1 else y
  let era := y'.fdiv 400
  let yoe := y' - era * 400
  let mp := (m + 9).emod 12
  let doy := (153 * mp + 2).fdiv 5 + d - 1
  let doe := yoe * 365 + yoe.fdiv 4 - yoe.fdiv 100 + doy
  era * 146097 + doe - 719468

/-- Civil date `(y, m ∈ 1..12, d ∈ 1..31)` of a day count from 1970-01-01
(the standard civil-from-days algorithm on `ℤ`). -/
def civilFromDays (z : ℤ) : ℤ × ℤ × ℤ :=
  let z' := z + 719468
  let era := z'.fdiv 146097
  let doe := z' - era * 146097
  let yoe := (doe - doe.fdiv 1460 + doe.fdiv 36524 - doe.fdiv 146096).fdiv 365
  let y := yoe + era * 400
  let doy := doe - (365 * yoe + yoe.fdiv 4 - yoe.fdiv 100)
  let mp := (5 * doy + 2).fdiv 153
  let d := doy - (153 * mp + 2).fdiv 5 + 1
  let m := if mp < 10 then mp + 3 else mp - 9
  (if m ≤ 2 then y + 1 else y, m, d)

/-- Modelled from the spec: the external spreadsheet date-serial decoder
`XLSX.SSF.parse_date_code` ("numeric cell → decoded via the spreadsheet's
date-serial epoch into (year, month, day)"); that code is not part of this
repository. Serial 25569 is 1970-01-01 in the 1900 date system; the time
fraction is discarded. No claim depends on the particular triple, only on
the `DD/MM/YYYY` formatting applied to it afterwards. -/
def parseDateCode (q : ℚ) : ℤ × ℤ × ℤ := civilFromDays (q.floor - 25569)

/-- JS `String.prototype.padStart(2, "0")`. -/
def pad2 (s : String) : String :=
  if s.length = 0 then "00" else if s.length = 1 then "0" ++ s else s

/-- `parseExcelDate` from `src/main.ts`: a numeric serial is decoded and
formatted `DD/MM/YYYY`; a string passes through unchanged; `null` (and
`undefined`) becomes `""` via `value ?? ""`. -/
def parseExcelDate : Cell → String
  | Cell.num q =>
    let ymd := parseDateCode q
    pad2 (intStr ymd.2.2) ++ "/" ++ pad2 (intStr ymd.2.1) ++ "/" ++ intStr ymd.1
  | Cell.str s => s
  | Cell.null => ""

/-! ## Date parsing for the ordering (`parseDateString`) -/

/-- JS `parseInt(s, 10)`: skip whitespace, optional sign, then a nonempty
run of decimal digits (trailing characters ignored); `none` is `NaN`. -/
def parseIntJs (l : List Char) : Option ℤ :=
  let sgn := parseSign (l.dropWhile jsWhitespace)
  let dr := takeDigits sgn.2
  if dr.1.isEmpty then none
  else some (if sgn.1 then -(digitsVal dr.1 : ℤ) else (digitsVal dr.1 : ℤ))

/-- JS `s.split("/")` on a character list. -/
def splitOnSlash : List Char → List (List Char)
  | [] => [[]]
  | c :: t =>
    match splitOnSlash t with
    | [] => [[]]
    | h :: r => if c = '/' then [] :: h :: r else (c :: h) :: r

/-- The ECMAScript TimeClip range expressed in days: a time value whose
absolute value exceeds 8.64e15 milliseconds = 100 000 000 days is clipped
to `NaN` (an Invalid Date). -/
def timeClipDays : ℤ := 100000000

/-- The timestamp of JS `new Date(year, month, day)` in days (`getTime` is
this times 86 400 000 in a fixed timezone; only differences of timestamps
are ever used, as a sort comparator, so the scale does not matter).
Years 0–99 are offset to 1900–1999 and out-of-range months and days roll
over arithmetically, as in JS. A time outside the TimeClip range gives an
Invalid Date whose `getTime()` is `NaN`, modelled as `none`. -/
def jsDateValue (year month0 day : ℤ) : Option ℤ :=
  let y := if 0 ≤ year && year ≤ 99 then year + 1900 else year
  let t := daysFromCivil (y + month0.fdiv 12) (month0.emod 12 + 1) 1 + (day - 1)
  if t < -timeClipDays || timeClipDays < t then none else some t

/-- `parseDateString` from `src/main.ts` fused with `Date#getTime`:
split on `'/'`, require exactly three parts, `parseInt` each (month is
0-indexed), and build the `Date`'s timestamp. The outer `none` is the
`null` return (the function's only falsy result — an Invalid Date object is
still truthy); the inner `none` is an Invalid Date's `NaN` time value. -/
def parseDateString (s : String) : Option (Option ℤ) :=
  match splitOnSlash s.toList with
  | [p0, p1, p2] =>
    match parseIntJs p0, parseIntJs p1, parseIntJs p2 with
    | some day, some month, some year => some (jsDateValue year (month - 1) day)
    | _, _, _ => none
  | _ => none

/-! ## Transactions, classifier, normalizer -/

/-- The `Transaction` record of `src/main.ts`. -/
structure Transaction where
  key : String
  date : String
  description : String
  reference : String
  debit : ℚ
  credit : ℚ
deriving DecidableEq

/-- Column positions (`COLUMN_INDICES` in `src/main.ts`). -/
def DATE_COL : Nat := 1
def DESCRIPTION_COL : Nat := 2
def DEBIT_COL : Nat := 4
def CREDIT_COL : Nat := 5
def REFERENCE_COL : Nat := 7

/-- `MIN_ROW_LENGTH` in `src/main.ts`. -/
def MIN_ROW_LENGTH : Nat := 5

/-- `isValidDataRow` from `src/main.ts`: a non-null row of at least 5 cells
whose trimmed description is nonempty and whose uppercased trimmed
description does not contain "SALDO". -/
def isValidDataRow : ExcelRow → Bool
  | Option.none => false
  | Option.some row =>
    if row.length < MIN_ROW_LENGTH then false
    else
      let desc := trimJs (cellText (cellAt row DESCRIPTION_COL))
      decide (desc.length > 0) && !containsSub (upperAscii desc) "SALDO"

/-- `parseTransaction` from `src/main.ts`: value-parse the fixed columns and
join the five canonical fields with `'|'` into the dedup key. -/
def parseTransaction (row : List Cell) : Transaction :=
  let date := parseExcelDate (cellAt row DATE_COL)
  let description := trimJs (cellText (cellAt row DESCRIPTION_COL))
  let reference := trimJs (cellText (cellAt row REFERENCE_COL))
  let debit := parseMoney (cellAt row DEBIT_COL)
  let credit := parseMoney (cellAt row CREDIT_COL)
  { key := date ++ "|" ++ description ++ "|" ++ reference ++ "|" ++
      numToString debit ++ "|" ++ numToString credit
    date := date
    description := description
    reference := reference
    debit := debit
    credit := credit }

/-- The predicate of `findHeaderRowIndex`: the row is non-null and has a
text cell whose uppercased form contains "FECHA". -/
def isHeaderRow : ExcelRow → Bool
  | Option.none => false
  | Option.some row =>
    row.any (fun c => match c with
      | Cell.str s => containsSub (upperAscii s) "FECHA"
      | _ => false)

/-- `findHeaderRowIndex` from `src/main.ts`: `Array.prototype.findIndex`,
`-1` when no row matches. -/
def findHeaderRowIndex (rows : List ExcelRow) : ℤ :=
  match List.findIdx? isHeaderRow rows with
  | some i => (i : ℤ)
  | none => -1

/-! ## The ledger store -/

/-- The `transactions` field: a JS `Map` as an insertion-ordered association
list with unique keys. -/
abbrev TxMap := List (String × Transaction)

/-- JS `Map.prototype.set`: replace in place when the key is present
(keeping its position), append otherwise. -/
def mapSet : TxMap → Transaction → TxMap
  | [], tx => [(tx.key, tx)]
  | (k, v) :: t, tx => if k = tx.key then (k, tx) :: t else (k, v) :: mapSet t tx

/-- JS `Map.prototype.get` (first entry with the key). -/
def mapLookup (k : String) : TxMap → Option Transaction
  | [] => none
  | (k', v) :: t => if k' = k then some v else mapLookup k t

/-- The key list of a map. -/
def mapKeys (m : TxMap) : List String := m.map (fun p => p.1)

/-- JS `Map.prototype.values` (insertion order). -/
def mapValues (m : TxMap) : List Transaction := m.map (fun p => p.2)

/-- `recalculateTotals`'s income: the sum of `credit` over the map. -/
def sumCredits (m : TxMap) : ℚ := (m.map (fun p => p.2.credit)).sum

/-- `recalculateTotals`'s outcome: the sum of `debit` over the map. -/
def sumDebits (m : TxMap) : ℚ := (m.map (fun p => p.2.debit)).sum

/-- The mutable application state of `src/main.ts` (the DOM mirror fields
are external collaborators and are not part of the core). -/
structure AppState where
  income : ℚ
  outcome : ℚ
  loadedFiles : List String
  transactions : TxMap
deriving DecidableEq

/-- The initial state. -/
def initState : AppState :=
  { income := 0, outcome := 0, loadedFiles := [], transactions := [] }

/-- `state.reset()`. -/
def resetState (_ : AppState) : AppState := initState

/-- The `netBalance` getter. -/
def netBalance (s : AppState) : ℚ := s.income - s.outcome

/-- JS `Set.prototype.add` on the insertion-ordered file-name set. -/
def addFile (name : String) (files : List String) : List String :=
  if name ∈ files then files else files ++ [name]

/-- The transactions a raw-row batch contributes in `addTransactions`:
slice strictly after the header index (`slice(-1 + 1) = slice(0)` — i.e.
the whole input — when no header is found), filter by `isValidDataRow`,
map `parseTransaction`. -/
def txsOfRows (rows : List ExcelRow) : List Transaction :=
  let dataRows := rows.drop (findHeaderRowIndex rows + 1).toNat
  ((dataRows.filter isValidDataRow).filterMap id).map parseTransaction

/-- `addTransactions` from `src/main.ts`: upsert each parsed transaction by
key, then `recalculateTotals` (a full recompute of `income`/`outcome` from
the map); the trailing `renderTransactions()` is DOM-only. -/
def addTransactions (rows : List ExcelRow) (s : AppState) : AppState :=
  let m := (txsOfRows rows).foldl mapSet s.transactions
  { s with transactions := m, income := sumCredits m, outcome := sumDebits m }

/-- One file ingestion (`handleFiles` + `processFile`): record the file name
into `loadedFiles`, then `addTransactions` on the decoded rows. -/
def ingest (name : String) (rows : List ExcelRow) (s : AppState) : AppState :=
  addTransactions rows { s with loadedFiles := addFile name s.loadedFiles }

/-- The states reachable from the initial state by ingest and reset. -/
inductive Reachable : AppState → Prop where
  | init : Reachable initState
  | ingest (name : String) (rows : List ExcelRow) {s : AppState} :
      Reachable s → Reachable (ingest name rows s)
  | reset {s : AppState} : Reachable s → Reachable (resetState s)

/-! ## The ordering policy -/

/-- `compareTransactionsByDate` from `src/main.ts`: the `!date` guards fire
only on the `null` return of `parseDateString` (an Invalid Date object is
truthy), so two null dates tie, a null date sorts after any non-null one,
and otherwise the result is `dateB.getTime() - dateA.getTime()` — which is
`NaN` (`none` here) as soon as either `getTime()` is `NaN`. -/
def compareTransactionsByDate (a b : Transaction) : Option ℤ :=
  match parseDateString a.date, parseDateString b.date with
  | none, none => some 0
  | none, some _ => some 1
  | some _, none => some (-1)
  | some ta, some tb =>
    match ta, tb with
    | some va, some vb => some (vb - va)
    | _, _ => none

/-- ECMAScript `SortCompare`: `Array.prototype.sort` replaces a `NaN`
comparator result by `+0`. -/
def sortCompare (a b : Transaction) : ℤ := (compareTransactionsByDate a b).getD 0

/-- The "`a` comes before or ties with `b`" order the sort actually
consumes. -/
def leTx (a b : Transaction) : Prop := sortCompare a b ≤ 0

instance : DecidableRel leTx := fun a b => inferInstanceAs (Decidable (_ ≤ _))

/-- `getSortedTransactions` from `src/main.ts`:
`Array.from(map.values()).sort(compareTransactionsByDate)`. JS `sort` is a
stable comparator sort; when the comparator is a consistent total preorder
(which it is exactly on inputs free of Invalid Dates, whose `NaN` results
`SortCompare` collapses to ties) every stable sort computes the same list,
and otherwise ECMAScript leaves the order implementation-defined — the model
fixes one concrete stable comparison sort, insertion sort. -/
def getSortedTransactions (s : AppState) : List Transaction :=
  (mapValues s.transactions).insertionSort leTx

/-! ## Lemmas about the JS-Map model -/

/-- The last transaction in `l` whose key is `k` (the one a fold of
`mapSet` leaves in the map). -/
def lastWith : List Transaction → String → Option Transaction
  | [], _ => none
  | tx :: t, k =>
    match lastWith t k with
    | some v => some v
    | none => if tx.key = k then some tx else none

theorem mapLookup_mapSet (m : TxMap) (tx : Transaction) (k : String) :
    mapLookup k (mapSet m tx) = if tx.key = k then some tx else mapLookup k m := by
  induction m with
  | nil => simp [mapSet, mapLookup]
  | cons hd t ih =>
    rcases hd with ⟨k', v⟩
    simp only [mapSet]
    by_cases hk : k' = tx.key
    · rw [if_pos hk]
      simp only [mapLookup, hk]
      by_cases he : tx.key = k <;> simp [he]
    · rw [if_neg hk]
      simp only [mapLookup]
      by_cases he : k' = k
      · have h3 : ¬ tx.key = k := fun h => hk (he.trans h.symm)
        simp [he, h3]
      · simp [he, ih]

theorem mapLookup_foldl (l : List Transaction) (m : TxMap) (k : String) :
    mapLookup k (l.foldl mapSet m) =
      match lastWith l k with
      | some v => some v
      | none => mapLookup k m := by
  induction l generalizing m with
  | nil => simp [lastWith]
  | cons tx t ih =>
    show mapLookup k (t.foldl mapSet (mapSet m tx)) = _
    rw [ih]
    rcases hl : lastWith t k with _ | v
    · simp only [lastWith, hl, mapLookup_mapSet]
      by_cases he : tx.key = k <;> simp [he]
    · simp [lastWith, hl]

theorem lastWith_eq_none_iff (l : List Transaction) (k : String) :
    lastWith l k = none ↔ ∀ tx ∈ l, tx.key ≠ k := by
  induction l with
  | nil => simp [lastWith]
  | cons tx t ih =>
    rcases hl : lastWith t k with _ | v
    · by_cases hk : tx.key = k <;> simp_all [lastWith, hl, hk]
    · have hnot : ¬ ∀ tx ∈ t, tx.key ≠ k := fun hall => by
        rw [ih.mpr hall] at hl
        exact Option.noConfusion hl
      simp only [lastWith, hl]
      constructor
      · intro h; exact Option.noConfusion h
      · intro h
        exact absurd (fun tx htx => h tx (List.mem_cons_of_mem _ htx)) hnot

theorem lastWith_some_mem {l : List Transaction} {k : String} {v : Transaction}
    (h : lastWith l k = some v) : v ∈ l ∧ v.key = k := by
  induction l with
  | nil => exact Option.noConfusion h
  | cons tx t ih =>
    rcases hl : lastWith t k with _ | w
    · simp only [lastWith, hl] at h
      by_cases hk : tx.key = k
      · rw [if_pos hk] at h
        cases h
        exact ⟨List.mem_cons_self _ _, hk⟩
      · rw [if_neg hk] at h
        exact Option.noConfusion h
    · simp only [lastWith, hl] at h
      cases h
      obtain ⟨hm, hk⟩ := ih hl
      exact ⟨List.mem_cons_of_mem _ hm, hk⟩

theorem mapLookup_eq_none_iff (m : TxMap) (k : String) :
    mapLookup k m = none ↔ k ∉ mapKeys m := by
  induction m with
  | nil => simp [mapLookup, mapKeys]
  | cons hd t ih =>
    rcases hd with ⟨k', v⟩
    by_cases hk : k' = k
    · simp [mapLookup, mapKeys, hk]
    · have : ¬ k = k' := fun h => hk h.symm
      simp [mapLookup, mapKeys, hk, this, ih]

theorem mapKeys_mapSet (m : TxMap) (tx : Transaction) :
    mapKeys (mapSet m tx) =
      if tx.key ∈ mapKeys m then mapKeys m else mapKeys m ++ [tx.key] := by
  induction m with
  | nil => simp [mapSet, mapKeys]
  | cons hd t ih =>
    rcases hd with ⟨k', v⟩
    simp only [mapSet]
    by_cases hk : k' = tx.key
    · rw [if_pos hk]
      have : tx.key ∈ mapKeys ((k', v) :: t) := by simp [mapKeys, hk.symm]
      rw [if_pos this]
      simp [mapKeys, hk]
    · rw [if_neg hk]
      have hne : ¬ tx.key = k' := fun h => hk h.symm
      have hcons : mapKeys ((k', v) :: mapSet t tx) = k' :: mapKeys (mapSet t tx) := rfl
      by_cases hm : tx.key ∈ mapKeys t
      · have : tx.key ∈ mapKeys ((k', v) :: t) := by simp [mapKeys] at hm ⊢; right; exact hm
        rw [if_pos this, hcons, ih, if_pos hm]
        rfl
      · have : tx.key ∉ mapKeys ((k', v) :: t) := by
          simp [mapKeys] at hm ⊢
          exact ⟨hne, hm⟩
        rw [if_neg this, hcons, ih, if_neg hm]
        rfl

theorem mapKeys_foldl_of_mem (l : List Transaction) (m : TxMap)
    (h : ∀ tx ∈ l, tx.key ∈ mapKeys m) :
    mapKeys (l.foldl mapSet m) = mapKeys m := by
  induction l generalizing m with
  | nil => rfl
  | cons tx t ih =>
    show mapKeys (t.foldl mapSet (mapSet m tx)) = _
    have hkeys : mapKeys (mapSet m tx) = mapKeys m := by
      rw [mapKeys_mapSet, if_pos (h tx (List.mem_cons_self _ _))]
    rw [ih (mapSet m tx) (fun tx' htx' => by
      rw [hkeys]; exact h tx' (List.mem_cons_of_mem _ htx')), hkeys]

theorem nodup_mapKeys_mapSet {m : TxMap} (tx : Transaction)
    (h : (mapKeys m).Nodup) : (mapKeys (mapSet m tx)).Nodup := by
  rw [mapKeys_mapSet]
  by_cases hm : tx.key ∈ mapKeys m
  · simpa [hm] using h
  · simpa [hm, List.nodup_append] using h

theorem nodup_mapKeys_foldl (l : List Transaction) {m : TxMap}
    (h : (mapKeys m).Nodup) : (mapKeys (l.foldl mapSet m)).Nodup := by
  induction l generalizing m with
  | nil => exact h
  | cons tx t ih => exact ih (nodup_mapKeys_mapSet tx h)

theorem txmap_ext (m1 : TxMap) : ∀ (m2 : TxMap),
    mapKeys m1 = mapKeys m2 → (mapKeys m1).Nodup →
    (∀ k, mapLookup k m1 = mapLookup k m2) → m1 = m2 := by
  induction m1 with
  | nil =>
    intro m2 hk _ _
    have : List.map (fun p => p.1) m2 = [] := hk.symm
    exact (List.map_eq_nil_iff.mp this).symm
  | cons hd1 t1 ih =>
    intro m2 hk hn hl
    rcases hd1 with ⟨k, v⟩
    cases m2 with
    | nil => exact absurd hk (by simp [mapKeys])
    | cons hd2 t2 =>
      rcases hd2 with ⟨k2, v2⟩
      have hk' : k = k2 ∧ mapKeys t1 = mapKeys t2 := by
        simpa [mapKeys] using hk
      obtain ⟨hk2, hkt⟩ := hk'
      subst hk2
      have hv : v = v2 := by
        have := hl k
        simpa [mapLookup] using this
      subst hv
      have hcons : (mapKeys ((k, v) :: t1)) = k :: mapKeys t1 := rfl
      rw [hcons, List.nodup_cons] at hn
      have hknot1 : k ∉ mapKeys t1 := hn.1
      have hknot2 : k ∉ mapKeys t2 := fun h => hknot1 (hkt ▸ h)
      have htl : ∀ k', mapLookup k' t1 = mapLookup k' t2 := by
        intro k'
        by_cases hkk : k' = k
        · subst hkk
          rw [(mapLookup_eq_none_iff t1 k').mpr hknot1,
            (mapLookup_eq_none_iff t2 k').mpr hknot2]
        · have hne : ¬ k = k' := fun h => hkk h.symm
          have := hl k'
          simpa [mapLookup, hne] using this
      rw [ih t2 hkt hn.2 htl]

theorem mapLookup_some_split {m : TxMap} {k : String} {v : Transaction}
    (h : mapLookup k m = some v) :
    ∃ a b, m = a ++ (k, v) :: b ∧ k ∉ mapKeys a := by
  induction m with
  | nil => exact Option.noConfusion h
  | cons hd t ih =>
    rcases hd with ⟨k', v'⟩
    by_cases hk : k' = k
    · subst hk
      simp only [mapLookup, if_pos rfl] at h
      cases h
      exact ⟨[], t, rfl, by simp [mapKeys]⟩
    · simp only [mapLookup, if_neg hk] at h
      obtain ⟨a, b, hab, hmem⟩ := ih h
      refine ⟨(k', v') :: a, b, by rw [hab]; rfl, ?_⟩
      simp only [mapKeys, List.map_cons, List.mem_cons]
      rintro (h1 | h1)
      · exact hk h1.symm
      · exact hmem h1

theorem mapLookup_append_middle (a b : TxMap) (k k' : String) (v : Transaction)
    (hne : ¬ k = k') : mapLookup k' (a ++ (k, v) :: b) = mapLookup k' (a ++ b) := by
  induction a with
  | nil => simp [mapLookup, hne]
  | cons hda ta iha =>
    rcases hda with ⟨ka, va⟩
    by_cases hka : ka = k'
    · simp [mapLookup, hka]
    · simp only [List.cons_append, mapLookup, if_neg hka]
      exact iha

theorem perm_of_mapLookup_eq (m1 : TxMap) : ∀ (m2 : TxMap),
    (mapKeys m1).Nodup → (mapKeys m2).Nodup →
    (∀ k, mapLookup k m1 = mapLookup k m2) → List.Perm m1 m2 := by
  induction m1 with
  | nil =>
    intro m2 _ _ hl
    cases m2 with
    | nil => exact List.Perm.refl []
    | cons hd t =>
      rcases hd with ⟨k, v⟩
      have := hl k
      simp [mapLookup] at this
  | cons hd t1 ih =>
    intro m2 hn1 hn2 hl
    rcases hd with ⟨k, v⟩
    have hlk : mapLookup k m2 = some v := by
      have := hl k
      simpa [mapLookup] using this.symm
    obtain ⟨a, b, hab, hmem⟩ := mapLookup_some_split hlk
    subst hab
    have hcons : (mapKeys ((k, v) :: t1)) = k :: mapKeys t1 := rfl
    rw [hcons, List.nodup_cons] at hn1
    have hkeys2 : mapKeys (a ++ (k, v) :: b) = mapKeys a ++ k :: mapKeys b := by
      simp [mapKeys]
    rw [hkeys2] at hn2
    have hn2mid := List.nodup_cons.mp (List.nodup_middle.mp hn2)
    have hn2' : (mapKeys a ++ mapKeys b).Nodup ∧ k ∉ mapKeys a ++ mapKeys b :=
      ⟨hn2mid.2, hn2mid.1⟩
    have hnab : (mapKeys (a ++ b)).Nodup := by
      have : mapKeys (a ++ b) = mapKeys a ++ mapKeys b := by simp [mapKeys]
      rw [this]; exact hn2'.1
    have htl : ∀ k', mapLookup k' t1 = mapLookup k' (a ++ b) := by
      intro k'
      by_cases hkk : k' = k
      · subst hkk
        have h1 : mapLookup k' t1 = none := (mapLookup_eq_none_iff t1 k').mpr hn1.1
        have h2 : mapLookup k' (a ++ b) = none := by
          apply (mapLookup_eq_none_iff _ k').mpr
          intro hmem2
          apply hn2'.2
          have : mapKeys (a ++ b) = mapKeys a ++ mapKeys b := by simp [mapKeys]
          rw [this] at hmem2
          exact hmem2
        rw [h1, h2]
      · have hne : ¬ k = k' := fun h => hkk h.symm
        have step := mapLookup_append_middle a b k k' v hne
        have := hl k'
        simp only [mapLookup, if_neg hne] at this
        rw [this, step]
    have hperm : List.Perm t1 (a ++ b) := ih (a ++ b) hn1.2 hnab htl
    exact List.Perm.trans (hperm.cons (k, v)) List.perm_middle.symm

theorem sumCredits_eq_of_perm {m1 m2 : TxMap} (h : List.Perm m1 m2) :
    sumCredits m1 = sumCredits m2 := (h.map _).sum_eq

theorem sumDebits_eq_of_perm {m1 m2 : TxMap} (h : List.Perm m1 m2) :
    sumDebits m1 = sumDebits m2 := (h.map _).sum_eq

/-! ## Claim C2: aggregate consistency over reachable states -/

/-- C2: in every state reachable from the initial state by ingest and reset
operations, `income` is the sum of `credit` over the stored transactions,
`outcome` is the sum of `debit`, and `netBalance` is `income - outcome`. -/
theorem aggregate_consistency (s : AppState) (h : Reachable s) :
    s.income = sumCredits s.transactions ∧
      s.outcome = sumDebits s.transactions ∧
      netBalance s = s.income - s.outcome := by
  induction h with
  | init => exact ⟨rfl, rfl, rfl⟩
  | ingest name rows _ _ => exact ⟨rfl, rfl, rfl⟩
  | reset _ _ => exact ⟨rfl, rfl, rfl⟩

/-- Witness for `aggregate_consistency`: the concrete reachable state
obtained by ingesting one data row. -/
theorem aggregate_consistency_witness :
    (ingest "a.xls" [some [Cell.null, Cell.str "01/01/2024", Cell.str "PAGO",
        Cell.null, Cell.num 100]] initState).income =
      sumCredits (ingest "a.xls" [some [Cell.null, Cell.str "01/01/2024",
        Cell.str "PAGO", Cell.null, Cell.num 100]] initState).transactions ∧
    (ingest "a.xls" [some [Cell.null, Cell.str "01/01/2024", Cell.str "PAGO",
        Cell.null, Cell.num 100]] initState).outcome =
      sumDebits (ingest "a.xls" [some [Cell.null, Cell.str "01/01/2024",
        Cell.str "PAGO", Cell.null, Cell.num 100]] initState).transactions ∧
    netBalance (ingest "a.xls" [some [Cell.null, Cell.str "01/01/2024",
        Cell.str "PAGO", Cell.null, Cell.num 100]] initState) =
      (ingest "a.xls" [some [Cell.null, Cell.str "01/01/2024", Cell.str "PAGO",
        Cell.null, Cell.num 100]] initState).income -
      (ingest "a.xls" [some [Cell.null, Cell.str "01/01/2024", Cell.str "PAGO",
        Cell.null, Cell.num 100]] initState).outcome :=
  aggregate_consistency _ (Reachable.ingest "a.xls" _ Reachable.init)

/-! ## Claim C5: re-ingestion is idempotent -/

/-- C5: for every row batch and every ledger state (any JS `Map` state, i.e.
any association list with no duplicate keys), ingesting the batch a second
time immediately after the first changes nothing: the resulting state —
`transactions`, `income`, `outcome` and all — is exactly the state after the
first ingestion. -/
theorem ingestion_idempotent (rows : List ExcelRow) (s : AppState)
    (h : (mapKeys s.transactions).Nodup) :
    addTransactions rows (addTransactions rows s) = addTransactions rows s := by
  have hmemkeys : ∀ tx ∈ txsOfRows rows,
      tx.key ∈ mapKeys ((txsOfRows rows).foldl mapSet s.transactions) := by
    intro tx htx
    rcases hlast : lastWith (txsOfRows rows) tx.key with _ | v
    · rw [lastWith_eq_none_iff] at hlast
      exact absurd rfl (hlast tx htx)
    · have hsome : mapLookup tx.key ((txsOfRows rows).foldl mapSet s.transactions) =
          some v := by
        rw [mapLookup_foldl, hlast]
      by_contra hmem
      rw [(mapLookup_eq_none_iff _ tx.key).mpr hmem] at hsome
      exact Option.noConfusion hsome
  have hm2 : (txsOfRows rows).foldl mapSet
      ((txsOfRows rows).foldl mapSet s.transactions) =
      (txsOfRows rows).foldl mapSet s.transactions := by
    apply txmap_ext
    · exact mapKeys_foldl_of_mem _ _ hmemkeys
    · exact nodup_mapKeys_foldl _ (nodup_mapKeys_foldl _ h)
    · intro k
      rw [mapLookup_foldl]
      rcases hlast : lastWith (txsOfRows rows) k with _ | v
      · rfl
      · rw [mapLookup_foldl, hlast]
  calc addTransactions rows (addTransactions rows s)
      = { addTransactions rows s with
          transactions := (txsOfRows rows).foldl mapSet
            ((txsOfRows rows).foldl mapSet s.transactions),
          income := sumCredits ((txsOfRows rows).foldl mapSet
            ((txsOfRows rows).foldl mapSet s.transactions)),
          outcome := sumDebits ((txsOfRows rows).foldl mapSet
            ((txsOfRows rows).foldl mapSet s.transactions)) } := rfl
    _ = addTransactions rows s := by
        rw [hm2]
        rfl

/-- Witness for `ingestion_idempotent`: a concrete one-row batch over the
empty initial ledger. -/
theorem ingestion_idempotent_witness :
    addTransactions [some [Cell.null, Cell.str "01/01/2024", Cell.str "PAGO",
        Cell.null, Cell.num 100]]
      (addTransactions [some [Cell.null, Cell.str "01/01/2024",
        Cell.str "PAGO", Cell.null, Cell.num 100]] initState) =
    addTransactions [some [Cell.null, Cell.str "01/01/2024", Cell.str "PAGO",
        Cell.null, Cell.num 100]] initState :=
  ingestion_idempotent _ initState (by decide)

/-! ## Claim C1: batches without a recognizable header -/

/-- A data row (five cells, description "PAGO", debit 100) in a batch with
no "FECHA" cell anywhere. -/
def rowPago : ExcelRow :=
  some [Cell.null, Cell.str "01/01/2024", Cell.str "PAGO", Cell.null, Cell.num 100]

/-- A batch consisting only of `rowPago`. -/
def headerlessBatch : List ExcelRow := [rowPago]

/-- C1 counterexample: `headerlessBatch` has no text cell containing
"FECHA", yet ingesting it from the initial state adds a transaction and
changes `outcome` — `findIndex` returns `-1` and `slice(-1 + 1)` is the
whole input, not an empty data region. -/
theorem headerless_ingest_counterexample :
    (∀ row ∈ headerlessBatch, isHeaderRow row = false) ∧
    (addTransactions headerlessBatch initState).transactions ≠
      initState.transactions ∧
    (addTransactions headerlessBatch initState).outcome ≠ initState.outcome := by
  refine ⟨by decide, by decide, ?_⟩
  have htx : (addTransactions headerlessBatch initState).transactions =
      [((parseTransaction [Cell.null, Cell.str "01/01/2024", Cell.str "PAGO",
          Cell.null, Cell.num 100]).key,
        parseTransaction [Cell.null, Cell.str "01/01/2024", Cell.str "PAGO",
          Cell.null, Cell.num 100])] := by decide
  have hout : (addTransactions headerlessBatch initState).outcome =
      sumDebits (addTransactions headerlessBatch initState).transactions := rfl
  rw [hout, htx]
  show sumDebits _ ≠ (0 : ℚ)
  rw [show sumDebits [((parseTransaction [Cell.null, Cell.str "01/01/2024",
      Cell.str "PAGO", Cell.null, Cell.num 100]).key,
      parseTransaction [Cell.null, Cell.str "01/01/2024", Cell.str "PAGO",
        Cell.null, Cell.num 100])] =
      (parseTransaction [Cell.null, Cell.str "01/01/2024", Cell.str "PAGO",
        Cell.null, Cell.num 100]).debit + 0 from rfl]
  rw [show (parseTransaction [Cell.null, Cell.str "01/01/2024", Cell.str "PAGO",
      Cell.null, Cell.num 100]).debit = (100 : ℚ) from by decide]
  norm_num

/-- C1 amended: when no row contains a text cell whose uppercased form
contains "FECHA", the *entire* batch (from row 0) is the candidate data
region — `findIndex` yields `-1` and `slice(-1 + 1) = slice(0)` — so the
parsed transactions are those of all classifier-accepted rows of the whole
input; the ledger is unchanged only when additionally no row passes the
classifier (for states satisfying the totals invariant, e.g. reachable
ones). -/
theorem headerless_ingest_amended (rows : List ExcelRow) (s : AppState)
    (hno : ∀ row ∈ rows, isHeaderRow row = false)
    (hinv : s.income = sumCredits s.transactions ∧
      s.outcome = sumDebits s.transactions) :
    txsOfRows rows = ((rows.filter isValidDataRow).filterMap id).map parseTransaction ∧
    ((∀ row ∈ rows, isValidDataRow row = false) → addTransactions rows s = s) := by
  have hnone : List.findIdx? isHeaderRow rows = none :=
    List.findIdx?_eq_none_iff.mpr hno
  have hidx : findHeaderRowIndex rows = -1 := by
    simp only [findHeaderRowIndex, hnone]
  have htxs : txsOfRows rows =
      ((rows.filter isValidDataRow).filterMap id).map parseTransaction := by
    simp only [txsOfRows, hidx]
    rw [show ((-1 : ℤ) + 1).toNat = 0 from rfl, List.drop_zero]
  refine ⟨htxs, fun hall => ?_⟩
  have hfil : rows.filter isValidDataRow = [] := by
    rw [List.filter_eq_nil_iff]
    intro a ha
    rw [hall a ha]
    exact Bool.false_ne_true
  have hempty : txsOfRows rows = [] := by rw [htxs, hfil]; rfl
  obtain ⟨inc, out, files, txm⟩ := s
  show addTransactions rows ⟨inc, out, files, txm⟩ = _
  rw [show addTransactions rows ⟨inc, out, files, txm⟩ =
      ⟨sumCredits ((txsOfRows rows).foldl mapSet txm),
        sumDebits ((txsOfRows rows).foldl mapSet txm), files,
        (txsOfRows rows).foldl mapSet txm⟩ from rfl, hempty]
  show (⟨sumCredits txm, sumDebits txm, files, txm⟩ : AppState) = _
  rw [show sumCredits txm = inc from hinv.1.symm,
    show sumDebits txm = out from hinv.2.symm]

/-- Witness for `headerless_ingest_amended`: a batch whose single row is a
"SALDO" (balance) row — no header, nothing valid — ingested over the
initial state. -/
theorem headerless_ingest_amended_witness :
    txsOfRows [some [Cell.null, Cell.null, Cell.str "SALDO TOTAL", Cell.null,
        Cell.null]] =
      ((([some [Cell.null, Cell.null, Cell.str "SALDO TOTAL", Cell.null,
        Cell.null]] : List ExcelRow).filter isValidDataRow).filterMap id).map
        parseTransaction ∧
    ((∀ row ∈ ([some [Cell.null, Cell.null, Cell.str "SALDO TOTAL", Cell.null,
        Cell.null]] : List ExcelRow), isValidDataRow row = false) →
      addTransactions [some [Cell.null, Cell.null, Cell.str "SALDO TOTAL",
        Cell.null, Cell.null]] initState = initState) :=
  headerless_ingest_amended _ initState (by decide) ⟨rfl, rfl⟩

/-! ## Claim C4: ingestion order -/

/-- A row whose description is "A|B" and reference "C". -/
def rowDescAB : ExcelRow :=
  some [Cell.null, Cell.str "01/01/2024", Cell.str "A|B", Cell.null,
    Cell.num 0, Cell.num 0, Cell.null, Cell.str "C"]

/-- A row whose description is "A" and reference "B|C" — a different
transaction with the same dedup key `01/01/2024|A|B|C|0|0`. -/
def rowDescA : ExcelRow :=
  some [Cell.null, Cell.str "01/01/2024", Cell.str "A", Cell.null,
    Cell.num 0, Cell.num 0, Cell.null, Cell.str "B|C"]

/-- C4 counterexample: ingesting `[rowDescAB]` then `[rowDescA]` does not
yield the same `transactions` mapping as the opposite order — the two rows
normalize to different transactions with the same key (the `'|'` joins are
ambiguous), and the later ingestion wins. -/
theorem ingestion_commutes_counterexample :
    (addTransactions [rowDescA] (addTransactions [rowDescAB] initState)).transactions ≠
      (addTransactions [rowDescAB] (addTransactions [rowDescA] initState)).transactions := by
  decide

/-- C4 amended: over any duplicate-free starting map, ingesting batches A
then B gives the same `transactions` *mapping* (pointwise lookup), the same
`income`, and the same `outcome` as B then A, provided transactions of the
two batches that share a dedup key are equal (as is the case whenever the
text fields are free of `'|'`, by `key_injective_amended` below). -/
theorem ingestion_commutes_amended (A B : List ExcelRow) (s : AppState)
    (hnod : (mapKeys s.transactions).Nodup)
    (hkey : ∀ t1 ∈ txsOfRows A, ∀ t2 ∈ txsOfRows B, t1.key = t2.key → t1 = t2) :
    (∀ k, mapLookup k (addTransactions B (addTransactions A s)).transactions =
      mapLookup k (addTransactions A (addTransactions B s)).transactions) ∧
    (addTransactions B (addTransactions A s)).income =
      (addTransactions A (addTransactions B s)).income ∧
    (addTransactions B (addTransactions A s)).outcome =
      (addTransactions A (addTransactions B s)).outcome := by
  have hab : (addTransactions B (addTransactions A s)).transactions =
      (txsOfRows B).foldl mapSet ((txsOfRows A).foldl mapSet s.transactions) := rfl
  have hba : (addTransactions A (addTransactions B s)).transactions =
      (txsOfRows A).foldl mapSet ((txsOfRows B).foldl mapSet s.transactions) := rfl
  have hlook : ∀ k,
      mapLookup k ((txsOfRows B).foldl mapSet ((txsOfRows A).foldl mapSet s.transactions)) =
      mapLookup k ((txsOfRows A).foldl mapSet ((txsOfRows B).foldl mapSet s.transactions)) := by
    intro k
    rw [mapLookup_foldl, mapLookup_foldl, mapLookup_foldl, mapLookup_foldl]
    rcases ha : lastWith (txsOfRows A) k with _ | v <;>
      rcases hb : lastWith (txsOfRows B) k with _ | w
    · rfl
    · rfl
    · rfl
    · obtain ⟨hvm, hvk⟩ := lastWith_some_mem ha
      obtain ⟨hwm, hwk⟩ := lastWith_some_mem hb
      have : v = w := hkey v hvm w hwm (by rw [hvk, hwk])
      rw [this]
  have hn_ab : (mapKeys ((txsOfRows B).foldl mapSet
      ((txsOfRows A).foldl mapSet s.transactions))).Nodup :=
    nodup_mapKeys_foldl _ (nodup_mapKeys_foldl _ hnod)
  have hn_ba : (mapKeys ((txsOfRows A).foldl mapSet
      ((txsOfRows B).foldl mapSet s.transactions))).Nodup :=
    nodup_mapKeys_foldl _ (nodup_mapKeys_foldl _ hnod)
  have hperm := perm_of_mapLookup_eq _ _ hn_ab hn_ba hlook
  refine ⟨?_, ?_, ?_⟩
  · intro k
    rw [hab, hba]
    exact hlook k
  · show sumCredits ((txsOfRows B).foldl mapSet ((txsOfRows A).foldl mapSet s.transactions)) =
      sumCredits ((txsOfRows A).foldl mapSet ((txsOfRows B).foldl mapSet s.transactions))
    exact sumCredits_eq_of_perm hperm
  · show sumDebits ((txsOfRows B).foldl mapSet ((txsOfRows A).foldl mapSet s.transactions)) =
      sumDebits ((txsOfRows A).foldl mapSet ((txsOfRows B).foldl mapSet s.transactions))
    exact sumDebits_eq_of_perm hperm

/-- A second, key-disjoint data row for the commutativity witness. -/
def rowCobro : ExcelRow :=
  some [Cell.null, Cell.str "02/01/2024", Cell.str "COBRO", Cell.null,
    Cell.num 0, Cell.num 50]

/-- Witness for `ingestion_commutes_amended`: two concrete one-row batches
with distinct keys, over the initial state. -/
theorem ingestion_commutes_amended_witness :
    (∀ k, mapLookup k (addTransactions [rowCobro]
        (addTransactions [rowPago] initState)).transactions =
      mapLookup k (addTransactions [rowPago]
        (addTransactions [rowCobro] initState)).transactions) ∧
    (addTransactions [rowCobro] (addTransactions [rowPago] initState)).income =
      (addTransactions [rowPago] (addTransactions [rowCobro] initState)).income ∧
    (addTransactions [rowCobro] (addTransactions [rowPago] initState)).outcome =
      (addTransactions [rowPago] (addTransactions [rowCobro] initState)).outcome :=
  ingestion_commutes_amended [rowPago] [rowCobro] initState (by decide) (by decide)

/-! ## Claim C8: the row classifier -/

theorem string_length_pos_iff (s : String) : 0 < s.length ↔ s ≠ "" := by
  cases s with
  | mk data =>
    show 0 < data.length ↔ _
    rw [List.length_pos]
    rw [show ("" : String) = String.mk [] from rfl]
    constructor
    · intro h heq
      exact h (by injection heq)
    · intro h heq
      exact h (by rw [heq])

/-- C8: `isValidDataRow` accepts a row exactly when it is non-null, has at
least `MIN_ROW_LENGTH = 5` cells, its trimmed description cell is nonempty,
and the uppercased trimmed description does not contain "SALDO"; rejected
rows are merely dropped (the classifier is total, no error path exists). -/
theorem valid_row_characterization :
    isValidDataRow Option.none = false ∧
    ∀ row : List Cell, isValidDataRow (some row) =
      (decide (5 ≤ row.length) &&
        decide (trimJs (cellText (cellAt row DESCRIPTION_COL)) ≠ "") &&
        !containsSub (upperAscii (trimJs (cellText (cellAt row DESCRIPTION_COL))))
          "SALDO") := by
  refine ⟨rfl, ?_⟩
  intro row
  show (if row.length < MIN_ROW_LENGTH then false else _) = _
  by_cases hlen : row.length < MIN_ROW_LENGTH
  · rw [if_pos hlen]
    have : ¬ 5 ≤ row.length := by simpa [MIN_ROW_LENGTH] using hlen
    simp [this]
  · rw [if_neg hlen]
    have h5 : 5 ≤ row.length := by simpa [MIN_ROW_LENGTH] using hlen
    have hdec : decide ((trimJs (cellText (cellAt row DESCRIPTION_COL))).length > 0) =
        decide (trimJs (cellText (cellAt row DESCRIPTION_COL)) ≠ "") := by
      rcases Decidable.em (trimJs (cellText (cellAt row DESCRIPTION_COL)) = "") with he | he
      · simp [he]
      · simp [he, (string_length_pos_iff _).mpr he]
    simp [h5, hdec]

/-! ## Claim C7: money parsing -/

/-- C7: `parseMoney` is total by construction and never signals failure: an
absent (`null`) cell gives `0`; a numeric cell is returned as-is; a textual
cell is parsed after removing every `'.'` and replacing the first `','` by
`'.'` — the `Number(..)` result if that parse succeeds, and `0` (via `|| 0`)
if it fails; concretely `"1.234,56" ↦ 1234.56`, `null ↦ 0`, `42 ↦ 42`. -/
theorem parse_money_spec :
    parseMoney Cell.null = 0 ∧
    (∀ q : ℚ, parseMoney (Cell.num q) = q) ∧
    (∀ s : String,
      jsNumberOfString ((replaceFirstComma (removeDots s.toList)).asString) = none →
        parseMoney (Cell.str s) = 0) ∧
    (∀ s : String, ∀ q : ℚ,
      jsNumberOfString ((replaceFirstComma (removeDots s.toList)).asString) = some q →
        parseMoney (Cell.str s) = q) ∧
    parseMoney (Cell.str "1.234,56") = 1234.56 ∧
    parseMoney (Cell.num 42) = 42 := by
  refine ⟨rfl, fun q => rfl, ?_, ?_, ?_, rfl⟩
  · intro s h
    simp only [parseMoney, h]
  · intro s q h
    simp only [parseMoney, h]
  · rw [show parseMoney (Cell.str "1.234,56") =
        ((123456 : ℕ) : ℚ) * pow10 ((0 : ℤ) - 2) from rfl]
    rw [show ((0 : ℤ) - 2) = Int.negSucc 1 from rfl]
    rw [show pow10 (Int.negSucc 1) = 1 / ((10 ^ 2 : ℕ) : ℚ) from rfl]
    norm_num

/-- Witness for `parse_money_spec`: the failure fallback at the non-numeric
text `"abc"` and the success case at the empty text (JS `Number("") = 0`). -/
theorem parse_money_spec_witness :
    parseMoney (Cell.str "abc") = 0 ∧ parseMoney (Cell.str "") = 0 :=
  ⟨parse_money_spec.2.2.1 "abc" (by decide),
    parse_money_spec.2.2.2.1 "" 0 (by decide)⟩

/-! ## Claim C6: the ordering policy -/

theorem compare_valid_valid {a b : Transaction} {va vb : ℤ}
    (ha : parseDateString a.date = some (some va))
    (hb : parseDateString b.date = some (some vb)) :
    sortCompare a b = vb - va := by
  unfold sortCompare compareTransactionsByDate
  rw [ha, hb]
  rfl

theorem compare_null_nonnull {a b : Transaction} {tb : Option ℤ}
    (ha : parseDateString a.date = none)
    (hb : parseDateString b.date = some tb) :
    sortCompare a b = 1 := by
  unfold sortCompare compareTransactionsByDate
  rw [ha, hb]
  rfl

/-- The comparator's date information with an Invalid Date's `NaN` time
collapsed to a fixed in-range value: on transactions free of Invalid Dates
it induces the same order as `leTx` (proved below), and unlike `leTx` it is
transitive, so the standard sortedness theorems apply to it. -/
def dateRank (a : Transaction) : Option ℤ :=
  match parseDateString a.date with
  | none => none
  | some t => some (t.getD 0)

/-- The total preorder induced by `dateRank`. -/
def leTxTotal (a b : Transaction) : Prop :=
  (match dateRank a, dateRank b with
    | none, none => (0 : ℤ)
    | none, some _ => 1
    | some _, none => -1
    | some va, some vb => vb - va) ≤ 0

instance : DecidableRel leTxTotal := fun a b => inferInstanceAs (Decidable (_ ≤ _))

theorem leTxTotal_total : ∀ a b : Transaction, leTxTotal a b ∨ leTxTotal b a := by
  intro a b
  unfold leTxTotal
  rcases dateRank a with _ | va <;> rcases dateRank b with _ | vb <;> simp <;> omega

theorem leTxTotal_trans : ∀ a b c : Transaction,
    leTxTotal a b → leTxTotal b c → leTxTotal a c := by
  intro a b c
  unfold leTxTotal
  rcases dateRank a with _ | va <;> rcases dateRank b with _ | vb <;>
    rcases dateRank c with _ | vc <;> simp <;> omega

instance : IsTotal Transaction leTxTotal := ⟨leTxTotal_total⟩

instance : IsTrans Transaction leTxTotal := ⟨leTxTotal_trans⟩

theorem leTx_iff_leTxTotal {a b : Transaction}
    (ha : parseDateString a.date ≠ some none)
    (hb : parseDateString b.date ≠ some none) :
    leTx a b ↔ leTxTotal a b := by
  unfold leTx sortCompare compareTransactionsByDate leTxTotal dateRank
  rcases hpa : parseDateString a.date with _ | ta <;>
    rcases hpb : parseDateString b.date with _ | tb
  · simp
  · simp
  · simp
  · rcases ta with _ | va
    · exact absurd hpa ha
    · rcases tb with _ | vb
      · exact absurd hpb hb
      · simp

theorem orderedInsert_congr (r s : Transaction → Transaction → Prop)
    [DecidableRel r] [DecidableRel s] (a : Transaction) :
    ∀ (l : List Transaction),
      (∀ x ∈ a :: l, ∀ y ∈ a :: l, (r x y ↔ s x y)) →
      List.orderedInsert r a l = List.orderedInsert s a l := by
  intro l
  induction l with
  | nil => intro _; rfl
  | cons b t ih =>
    intro h
    have hab : r a b ↔ s a b :=
      h a (List.mem_cons_self _ _) b (List.mem_cons_of_mem _ (List.mem_cons_self _ _))
    simp only [List.orderedInsert]
    by_cases hr : r a b
    · rw [if_pos hr, if_pos (hab.mp hr)]
    · rw [if_neg hr, if_neg (fun hs => hr (hab.mpr hs))]
      rw [ih (fun x hx y hy => h x ?_ y ?_)]
      · rcases List.mem_cons.mp hx with h1 | h1
        · exact List.mem_cons.mpr (Or.inl h1)
        · exact List.mem_cons_of_mem _ (List.mem_cons_of_mem _ h1)
      · rcases List.mem_cons.mp hy with h1 | h1
        · exact List.mem_cons.mpr (Or.inl h1)
        · exact List.mem_cons_of_mem _ (List.mem_cons_of_mem _ h1)

theorem insertionSort_congr (r s : Transaction → Transaction → Prop)
    [DecidableRel r] [DecidableRel s] :
    ∀ (l : List Transaction), (∀ x ∈ l, ∀ y ∈ l, (r x y ↔ s x y)) →
      l.insertionSort r = l.insertionSort s := by
  intro l
  induction l with
  | nil => intro _; rfl
  | cons a t ih =>
    intro h
    rw [show (a :: t).insertionSort r = List.orderedInsert r a (t.insertionSort r) from rfl,
      show (a :: t).insertionSort s = List.orderedInsert s a (t.insertionSort s) from rfl]
    rw [ih (fun x hx y hy => h x (List.mem_cons_of_mem _ hx) y (List.mem_cons_of_mem _ hy))]
    refine orderedInsert_congr r s a _ (fun x hx y hy => h x ?_ y ?_)
    · rcases List.mem_cons.mp hx with h1 | h1
      · exact List.mem_cons.mpr (Or.inl h1)
      · exact List.mem_cons_of_mem _ ((List.mem_insertionSort s).mp h1)
    · rcases List.mem_cons.mp hy with h1 | h1
      · exact List.mem_cons.mpr (Or.inl h1)
      · exact List.mem_cons_of_mem _ ((List.mem_insertionSort s).mp h1)

/-- A data row dated 01/01/2024. -/
def rowJan2024 : ExcelRow :=
  some [Cell.null, Cell.str "01/01/2024", Cell.str "A", Cell.null, Cell.num 0]

/-- A data row whose date parses (three parts, three integers) but whose
year 999 999 999 exceeds the `Date` range: `new Date` yields an Invalid
Date, so the comparator computes `NaN` against it. -/
def rowOverflow : ExcelRow :=
  some [Cell.null, Cell.str "1/1/999999999", Cell.str "B", Cell.null, Cell.num 0]

/-- A data row dated 01/01/2030. -/
def rowJan2030 : ExcelRow :=
  some [Cell.null, Cell.str "01/01/2030", Cell.str "C", Cell.null, Cell.num 0]

/-- C6 counterexample: in the ledger holding, in insertion order, the
transactions dated 01/01/2024, 1/1/999999999 (an Invalid Date: parseable
shape, out of `Date` range) and 01/01/2030, the sort leaves the list as it
is — every comparison against the Invalid-Date transaction is `NaN`,
treated as a tie by `Array.prototype.sort` — so the 01/01/2030 transaction
(parsed day 21915) ends up *after* the 01/01/2024 one (parsed day 19723):
the output is not ordered by parsed calendar date descending. -/
theorem sorted_transactions_counterexample :
    getSortedTransactions
        (addTransactions [rowJan2024, rowOverflow, rowJan2030] initState) =
      [parseTransaction [Cell.null, Cell.str "01/01/2024", Cell.str "A",
          Cell.null, Cell.num 0],
        parseTransaction [Cell.null, Cell.str "1/1/999999999", Cell.str "B",
          Cell.null, Cell.num 0],
        parseTransaction [Cell.null, Cell.str "01/01/2030", Cell.str "C",
          Cell.null, Cell.num 0]] ∧
    parseDateString "01/01/2024" = some (some 19723) ∧
    parseDateString "01/01/2030" = some (some 21915) ∧
    (19723 : ℤ) < 21915 := by
  refine ⟨by decide, by decide, by decide, by decide⟩

/-- C6 amended: for every ledger state *none of whose transactions carries
an Invalid Date* (a date that splits into three `parseInt`-accepted parts
but lands outside the ±8.64e15 ms `Date` range — on such states the
comparator is a consistent total preorder, so JS's implementation-defined
sort is determined), `getSortedTransactions` returns exactly the current
transactions (a permutation of the map's values), pairwise agreed by the
comparator (parseable dates descending, most recent first); a transaction
whose date string fails to parse (`null` from `parseDateString`) is
included but never precedes one with a parseable date; and any two
unparseable-date transactions compare as equal (comparator 0, which also
holds unconditionally). Without the Invalid-Date restriction the original
claim fails (`sorted_transactions_counterexample`). -/
theorem sorted_transactions_amended (s : AppState)
    (hvalid : ∀ tx ∈ mapValues s.transactions,
      parseDateString tx.date ≠ some none) :
    List.Perm (getSortedTransactions s) (mapValues s.transactions) ∧
    List.Pairwise leTx (getSortedTransactions s) ∧
    List.Pairwise (fun a b => ∀ va vb, parseDateString a.date = some (some va) →
      parseDateString b.date = some (some vb) → vb ≤ va) (getSortedTransactions s) ∧
    List.Pairwise (fun a b => parseDateString a.date = none →
      parseDateString b.date = none) (getSortedTransactions s) ∧
    (∀ a b : Transaction, parseDateString a.date = none →
      parseDateString b.date = none → compareTransactionsByDate a b = some 0) := by
  have hcongr : getSortedTransactions s =
      (mapValues s.transactions).insertionSort leTxTotal := by
    refine insertionSort_congr leTx leTxTotal _ (fun x hx y hy => ?_)
    exact leTx_iff_leTxTotal (hvalid x hx) (hvalid y hy)
  have hsortW : List.Pairwise leTxTotal
      ((mapValues s.transactions).insertionSort leTxTotal) :=
    List.sorted_insertionSort leTxTotal (mapValues s.transactions)
  have hsorted : List.Pairwise leTx (getSortedTransactions s) := by
    rw [hcongr]
    refine hsortW.imp_of_mem (fun ha hb hab => ?_)
    next a b =>
      have hma : a ∈ mapValues s.transactions := (List.mem_insertionSort leTxTotal).mp ha
      have hmb : b ∈ mapValues s.transactions := (List.mem_insertionSort leTxTotal).mp hb
      exact (leTx_iff_leTxTotal (hvalid a hma) (hvalid b hmb)).mpr hab
  refine ⟨List.perm_insertionSort leTx (mapValues s.transactions), hsorted, ?_, ?_, ?_⟩
  · refine hsorted.imp ?_
    intro a b hab va vb hva hvb
    unfold leTx at hab
    rw [compare_valid_valid hva hvb] at hab
    omega
  · refine hsorted.imp ?_
    intro a b hab hnone
    rcases hb : parseDateString b.date with _ | tb
    · rfl
    · unfold leTx at hab
      rw [compare_null_nonnull hnone hb] at hab
      omega
  · intro a b ha hb
    unfold compareTransactionsByDate
    rw [ha, hb]

/-- Witness for `sorted_transactions_amended`: instantiated at the concrete
one-row (valid-date) ledger; the inner hypotheses of the last conjunct are
discharged at two concrete empty-date transactions. -/
theorem sorted_transactions_amended_witness :
    List.Perm (getSortedTransactions (addTransactions [rowPago] initState))
      (mapValues (addTransactions [rowPago] initState).transactions) ∧
    compareTransactionsByDate
      (parseTransaction [Cell.null, Cell.null, Cell.str "X", Cell.null, Cell.null])
      (parseTransaction [Cell.null, Cell.null, Cell.str "Y", Cell.null, Cell.null]) =
      some 0 :=
  ⟨(sorted_transactions_amended (addTransactions [rowPago] initState) (by decide)).1,
    (sorted_transactions_amended (addTransactions [rowPago] initState)
      (by decide)).2.2.2.2 _ _ (by decide) (by decide)⟩

/-! ## Claim C10: which date strings count as parseable -/

/-- C10: a date string is parseable for the ordering exactly when it splits
on `'/'` into exactly three parts, each of which `parseInt` accepts (an
optionally signed digit run after optional whitespace, trailing junk
ignored) — calendar validity is irrelevant: `"99/99/2024"` is not pushed to
the end but denotes the arithmetically rolled-over date `07/06/2032`, while
`""` (and any string with a `'/'`-part count other than three) fails and is
sorted last. -/
theorem date_parseable_characterization :
    (∀ s : String, (parseDateString s).isSome =
      ((splitOnSlash s.toList).length == 3 &&
        (splitOnSlash s.toList).all (fun p => (parseIntJs p).isSome))) ∧
    parseDateString "99/99/2024" = parseDateString "07/06/2032" ∧
    (parseDateString "99/99/2024").isSome = true ∧
    parseDateString "" = none := by
  refine ⟨?_, by decide, by decide, by decide⟩
  intro s
  unfold parseDateString
  rcases hsplit : splitOnSlash s.toList with _ | ⟨p0, tail⟩
  · rfl
  rcases tail with _ | ⟨p1, tail2⟩
  · simp [List.all]
  rcases tail2 with _ | ⟨p2, tail3⟩
  · simp [List.all]
  rcases tail3 with _ | ⟨p3, tail4⟩
  · rcases h0 : parseIntJs p0 with _ | d <;>
      rcases h1 : parseIntJs p1 with _ | m <;>
      rcases h2 : parseIntJs p2 with _ | y <;>
      simp [List.all, h0, h1, h2]
  · simp [List.all]

/-! ## Claim C9: sign of parsed amounts -/

/-- C9 counterexample: a classifier-accepted row whose debit cell is the
number `-5` produces a transaction with negative `debit` — nothing in the
code enforces non-negativity. -/
theorem amounts_nonneg_counterexample :
    isValidDataRow (some [Cell.null, Cell.str "01/01/2024", Cell.str "PAGO",
      Cell.null, Cell.num (-5)]) = true ∧
    (parseTransaction [Cell.null, Cell.str "01/01/2024", Cell.str "PAGO",
      Cell.null, Cell.num (-5)]).debit < 0 := by
  refine ⟨by decide, ?_⟩
  rw [show (parseTransaction [Cell.null, Cell.str "01/01/2024", Cell.str "PAGO",
      Cell.null, Cell.num (-5)]).debit = (-5 : ℚ) from rfl]
  decide

/-- A cell that can only contribute a non-negative amount: absent, a
non-negative number, or text without a `'-'` character. -/
def cellNonneg : Cell → Prop
  | Cell.null => True
  | Cell.num q => 0 ≤ q
  | Cell.str s => '-' ∉ s.toList

theorem parseSign_not_neg {l : List Char} (h : '-' ∉ l) :
    (parseSign l).1 = false := by
  unfold parseSign
  split
  · rfl
  · simp at h
  · rfl

theorem pow10_nonneg (z : ℤ) : 0 ≤ pow10 z := by
  unfold pow10
  rcases z with n | n
  · positivity
  · positivity

theorem parseDecLit_nonneg {l : List Char} (h : '-' ∉ l) {q : ℚ}
    (hq : parseDecLit l = some q) : 0 ≤ q := by
  have hs := parseSign_not_neg h
  unfold parseDecLit at hq
  simp only [hs, Bool.false_eq_true, if_false] at hq
  split at hq
  · exact Option.noConfusion hq
  · split at hq
    · exact Option.noConfusion hq
    · rw [Option.some_inj] at hq
      rw [← hq]
      exact mul_nonneg (Nat.cast_nonneg _) (pow10_nonneg _)

theorem mem_jsTrim {c : Char} {l : List Char} (h : c ∈ jsTrim l) : c ∈ l := by
  unfold jsTrim at h
  rw [List.mem_reverse] at h
  have h1 := (List.dropWhile_sublist jsWhitespace).mem h
  rw [List.mem_reverse] at h1
  exact (List.dropWhile_sublist jsWhitespace).mem h1

theorem mem_replaceFirstComma {c : Char} : ∀ {l : List Char},
    c ∈ replaceFirstComma l → c ∈ l ∨ c = '.' := by
  intro l
  induction l with
  | nil => intro h; exact absurd h (List.not_mem_nil c)
  | cons d t ih =>
    intro h
    unfold replaceFirstComma at h
    by_cases hd : d = ','
    · rw [if_pos hd] at h
      rcases List.mem_cons.mp h with h1 | h1
      · exact Or.inr h1
      · exact Or.inl (List.mem_cons_of_mem _ h1)
    · rw [if_neg hd] at h
      rcases List.mem_cons.mp h with h1 | h1
      · exact Or.inl (h1 ▸ List.mem_cons_self _ _)
      · rcases ih h1 with h2 | h2
        · exact Or.inl (List.mem_cons_of_mem _ h2)
        · exact Or.inr h2

theorem jsNumberOfString_nonneg {s : String} (h : '-' ∉ s.toList) {q : ℚ}
    (hq : jsNumberOfString s = some q) : 0 ≤ q := by
  unfold jsNumberOfString at hq
  split at hq
  · cases hq
    exact le_refl (0 : ℚ)
  · exact parseDecLit_nonneg (fun hm => h (mem_jsTrim hm)) hq

theorem parseMoney_nonneg (c : Cell) (h : cellNonneg c) : 0 ≤ parseMoney c := by
  cases c with
  | null => exact le_refl (0 : ℚ)
  | num q => exact h
  | str s =>
    rcases hq : jsNumberOfString ((replaceFirstComma (removeDots s.toList)).asString)
        with _ | q
    · have hq2 : jsNumberOfString ((replaceFirstComma (removeDots s.data)).asString) =
          none := hq
      simp [parseMoney, hq2]
    · have hmem : '-' ∉ ((replaceFirstComma (removeDots s.toList)).asString).toList := by
        intro hm
        have hm' : '-' ∈ replaceFirstComma (removeDots s.toList) := hm
        rcases mem_replaceFirstComma hm' with h1 | h1
        · exact h (List.mem_of_mem_filter h1)
        · exact absurd h1 (by decide)
      have hq' := jsNumberOfString_nonneg hmem hq
      have hq2 : jsNumberOfString ((replaceFirstComma (removeDots s.data)).asString) =
          some q := hq
      simpa [parseMoney, hq2] using hq'

/-- C9 amended: for every raw row (in particular every classifier-accepted
one) whose amount cells are absent, non-negative numbers, or text without a
`'-'` character, the normalized transaction has non-negative `debit` and
`credit`, each `0` when the corresponding cell is absent. The original
unconditional claim fails: the code never checks signs (see
`amounts_nonneg_counterexample`). -/
theorem amounts_nonneg_amended (row : List Cell)
    (hd : cellNonneg (cellAt row DEBIT_COL))
    (hc : cellNonneg (cellAt row CREDIT_COL)) :
    0 ≤ (parseTransaction row).debit ∧ 0 ≤ (parseTransaction row).credit ∧
    (cellAt row DEBIT_COL = Cell.null → (parseTransaction row).debit = 0) ∧
    (cellAt row CREDIT_COL = Cell.null → (parseTransaction row).credit = 0) := by
  refine ⟨parseMoney_nonneg _ hd, parseMoney_nonneg _ hc, ?_, ?_⟩
  · intro h
    show parseMoney (cellAt row DEBIT_COL) = 0
    rw [h]
    rfl
  · intro h
    show parseMoney (cellAt row CREDIT_COL) = 0
    rw [h]
    rfl

/-- Witness for `amounts_nonneg_amended`: the "PAGO" row (absent credit
cell, debit 100). -/
theorem amounts_nonneg_amended_witness :
    0 ≤ (parseTransaction [Cell.null, Cell.str "01/01/2024", Cell.str "PAGO",
      Cell.null, Cell.num 100]).debit ∧
    0 ≤ (parseTransaction [Cell.null, Cell.str "01/01/2024", Cell.str "PAGO",
      Cell.null, Cell.num 100]).credit ∧
    (cellAt [Cell.null, Cell.str "01/01/2024", Cell.str "PAGO", Cell.null,
      Cell.num 100] DEBIT_COL = Cell.null →
      (parseTransaction [Cell.null, Cell.str "01/01/2024", Cell.str "PAGO",
        Cell.null, Cell.num 100]).debit = 0) ∧
    (cellAt [Cell.null, Cell.str "01/01/2024", Cell.str "PAGO", Cell.null,
      Cell.num 100] CREDIT_COL = Cell.null →
      (parseTransaction [Cell.null, Cell.str "01/01/2024", Cell.str "PAGO",
        Cell.null, Cell.num 100]).credit = 0) :=
  amounts_nonneg_amended _ (show (0:ℚ) ≤ 100 by decide) trivial

/-! ## Claim C3: normalizer determinism and key injectivity -/

theorem dChar_inj_lt : ∀ d1 < 10, ∀ d2 < 10, dChar d1 = dChar d2 → d1 = d2 := by
  decide

theorem dChar_ne_pipe : ∀ d < 10, dChar d ≠ '|' := by decide

theorem dChar_ne_dash : ∀ d < 10, dChar d ≠ '-' := by decide

theorem dChar_ne_slash : ∀ d < 10, dChar d ≠ '/' := by decide

theorem natCharsAux_eq : ∀ (fuel n : Nat), n ≤ fuel →
    natCharsAux fuel n = (Nat.digits 10 n).reverse.map dChar := by
  intro fuel
  induction fuel with
  | zero =>
    intro n hn
    have h0 : n = 0 := by omega
    subst h0
    simp [natCharsAux]
  | succ f ih =>
    intro n hn
    cases n with
    | zero => simp [natCharsAux]
    | succ m =>
      have hdiv : (m + 1) / 10 ≤ f := by
        have := Nat.div_lt_self (Nat.succ_pos m) (by norm_num : (1:ℕ) < 10)
        omega
      rw [show natCharsAux (f + 1) (m + 1) =
        natCharsAux f ((m + 1) / 10) ++ [dChar ((m + 1) % 10)] from rfl]
      rw [ih _ hdiv]
      rw [Nat.digits_def' (by norm_num : (1:ℕ) < 10) (Nat.succ_pos m)]
      rw [List.reverse_cons, List.map_append]
      simp

theorem natChars_eq_digits {n : Nat} (h : n ≠ 0) :
    natChars n = (Nat.digits 10 n).reverse.map dChar := by
  unfold natChars
  rw [if_neg h]
  exact natCharsAux_eq n n le_rfl

theorem mem_natChars {c : Char} {n : Nat} (h : c ∈ natChars n) :
    ∃ d, d < 10 ∧ c = dChar d := by
  by_cases hn : n = 0
  · subst hn
    have hc : c = '0' := by simpa [natChars] using h
    exact ⟨0, by norm_num, by rw [hc]; rfl⟩
  · rw [natChars_eq_digits hn, List.mem_map] at h
    obtain ⟨d, hd, hc⟩ := h
    rw [List.mem_reverse] at hd
    exact ⟨d, Nat.digits_lt_base (by norm_num) hd, hc.symm⟩

theorem natChars_not_dash {n : Nat} : '-' ∉ natChars n := by
  intro h
  obtain ⟨d, hd, hc⟩ := mem_natChars h
  exact dChar_ne_dash d hd hc.symm

theorem map_dChar_inj : ∀ (l1 l2 : List Nat), (∀ x ∈ l1, x < 10) →
    (∀ x ∈ l2, x < 10) → l1.map dChar = l2.map dChar → l1 = l2 := by
  intro l1
  induction l1 with
  | nil =>
    intro l2 _ _ h
    cases l2 with
    | nil => rfl
    | cons b t2 => simp at h
  | cons a t ih =>
    intro l2 h1 h2 h
    cases l2 with
    | nil => simp at h
    | cons b t2 =>
      simp only [List.map_cons, List.cons.injEq] at h
      have ha := h1 a (List.mem_cons_self _ _)
      have hb := h2 b (List.mem_cons_self _ _)
      rw [dChar_inj_lt a ha b hb h.1,
        ih t2 (fun x hx => h1 x (List.mem_cons_of_mem _ hx))
          (fun x hx => h2 x (List.mem_cons_of_mem _ hx)) h.2]

theorem natChars_eq_zero_chars {n : Nat} (h : natChars n = ['0']) : n = 0 := by
  by_cases hn : n = 0
  · exact hn
  · exfalso
    rw [natChars_eq_digits hn] at h
    have hd : (Nat.digits 10 n).reverse = [0] := by
      apply map_dChar_inj
      · intro x hx
        rw [List.mem_reverse] at hx
        exact Nat.digits_lt_base (by norm_num) hx
      · intro x hx
        simp at hx
        omega
      · rw [h]; rfl
    have hdig : Nat.digits 10 n = [0] := by
      have := congrArg List.reverse hd
      simpa using this
    have : n = Nat.ofDigits 10 [0] := by
      rw [← hdig, Nat.ofDigits_digits]
    simp [Nat.ofDigits] at this
    exact hn this

theorem natChars_inj {m n : Nat} (h : natChars m = natChars n) : m = n := by
  by_cases hm : m = 0 <;> by_cases hn : n = 0
  · rw [hm, hn]
  · subst hm
    exact absurd (natChars_eq_zero_chars (h.symm.trans (by simp [natChars]))) hn
  · subst hn
    exact natChars_eq_zero_chars (h.trans (by simp [natChars]))
  · rw [natChars_eq_digits hm, natChars_eq_digits hn] at h
    have hd := map_dChar_inj _ _
      (fun x hx => by
        rw [List.mem_reverse] at hx
        exact Nat.digits_lt_base (by norm_num) hx)
      (fun x hx => by
        rw [List.mem_reverse] at hx
        exact Nat.digits_lt_base (by norm_num) hx) h
    have := congrArg List.reverse hd
    simp only [List.reverse_reverse] at this
    exact Nat.digits.injective 10 this

theorem mem_intChars {c : Char} {z : ℤ} (h : c ∈ intChars z) :
    c = '-' ∨ ∃ d, d < 10 ∧ c = dChar d := by
  unfold intChars at h
  split at h
  · rcases List.mem_cons.mp h with h1 | h1
    · exact Or.inl h1
    · exact Or.inr (mem_natChars h1)
  · exact Or.inr (mem_natChars h)

theorem intChars_not_slash {z : ℤ} : '/' ∉ intChars z := by
  intro h
  rcases mem_intChars h with h1 | ⟨d, hd, hc⟩
  · exact absurd h1 (by decide)
  · exact dChar_ne_slash d hd hc.symm

theorem intChars_inj {y z : ℤ} (h : intChars y = intChars z) : y = z := by
  unfold intChars at h
  by_cases hy : y < 0 <;> by_cases hz : z < 0
  · rw [if_pos hy, if_pos hz] at h
    have hn : y.natAbs = z.natAbs := natChars_inj (by injection h)
    omega
  · rw [if_pos hy, if_neg hz] at h
    exact absurd (h ▸ List.mem_cons_self '-' (natChars y.natAbs)) natChars_not_dash
  · rw [if_neg hy, if_pos hz] at h
    exact absurd (h.symm ▸ List.mem_cons_self '-' (natChars z.natAbs)) natChars_not_dash
  · rw [if_neg hy, if_neg hz] at h
    have hn : y.natAbs = z.natAbs := natChars_inj h
    omega

theorem append_sep_inj {sep : Char} : ∀ (a b x y : List Char), sep ∉ a → sep ∉ b →
    a ++ sep :: x = b ++ sep :: y → a = b ∧ x = y := by
  intro a
  induction a with
  | nil =>
    intro b x y _ hb h
    cases b with
    | nil => simpa using h
    | cons c t =>
      simp only [List.nil_append, List.cons_append, List.cons.injEq] at h
      exact absurd (List.mem_cons.mpr (Or.inl h.1)) hb
  | cons c t ih =>
    intro b x y ha hb h
    cases b with
    | nil =>
      simp only [List.cons_append, List.nil_append, List.cons.injEq] at h
      exact absurd (List.mem_cons.mpr (Or.inl h.1.symm)) ha
    | cons c2 t2 =>
      simp only [List.cons_append, List.cons.injEq] at h
      obtain ⟨h1, h2⟩ := h
      have ha2 : sep ∉ t := fun hm => ha (List.mem_cons_of_mem _ hm)
      have hb2 : sep ∉ t2 := fun hm => hb (List.mem_cons_of_mem _ hm)
      obtain ⟨e1, e2⟩ := ih t2 x y ha2 hb2 h2
      exact ⟨by rw [h1, e1], e2⟩

theorem rat_ext_num_den {p q : ℚ} (hn : p.num = q.num) (hd : p.den = q.den) :
    p = q := by
  cases p
  cases q
  simp_all

theorem mem_ratChars {c : Char} {q : ℚ} (h : c ∈ ratChars q) :
    c = '-' ∨ c = '/' ∨ ∃ d, d < 10 ∧ c = dChar d := by
  unfold ratChars at h
  split at h
  · rcases mem_intChars h with h1 | h1
    · exact Or.inl h1
    · exact Or.inr (Or.inr h1)
  · rcases List.mem_append.mp h with h1 | h1
    · rcases mem_intChars h1 with h2 | h2
      · exact Or.inl h2
      · exact Or.inr (Or.inr h2)
    · rcases List.mem_cons.mp h1 with h2 | h2
      · exact Or.inr (Or.inl h2)
      · exact Or.inr (Or.inr (mem_natChars h2))

theorem ratChars_not_pipe {q : ℚ} : '|' ∉ ratChars q := by
  intro h
  rcases mem_ratChars h with h1 | h1 | ⟨d, hd, hc⟩
  · exact absurd h1 (by decide)
  · exact absurd h1 (by decide)
  · exact dChar_ne_pipe d hd hc.symm

theorem ratChars_inj {p q : ℚ} (h : ratChars p = ratChars q) : p = q := by
  unfold ratChars at h
  by_cases hp : p.den = 1 <;> by_cases hq : q.den = 1
  · rw [if_pos hp, if_pos hq] at h
    exact rat_ext_num_den (intChars_inj h) (hp.trans hq.symm)
  · rw [if_pos hp, if_neg hq] at h
    have : '/' ∈ intChars p.num := by
      rw [h]
      exact List.mem_append_right _ (List.mem_cons_self _ _)
    exact absurd this intChars_not_slash
  · rw [if_neg hp, if_pos hq] at h
    have : '/' ∈ intChars q.num := by
      rw [← h]
      exact List.mem_append_right _ (List.mem_cons_self _ _)
    exact absurd this intChars_not_slash
  · rw [if_neg hp, if_neg hq] at h
    obtain ⟨e1, e2⟩ := append_sep_inj (intChars p.num) (intChars q.num) _ _
      intChars_not_slash intChars_not_slash h
    exact rat_ext_num_den (intChars_inj e1) (natChars_inj e2)

theorem string_data_append (a b : String) : (a ++ b).data = a.data ++ b.data := rfl

/-- A string with no `'|'` character (so it cannot confuse the key join). -/
def pipeFree (s : String) : Prop := '|' ∉ s.data

instance (s : String) : Decidable (pipeFree s) :=
  inferInstanceAs (Decidable ('|' ∉ s.data))

theorem key_data_eq (a b c : String) (d e : ℚ) :
    (a ++ "|" ++ b ++ "|" ++ c ++ "|" ++ numToString d ++ "|" ++ numToString e).data =
      a.data ++ '|' :: (b.data ++ '|' :: (c.data ++ '|' ::
        (ratChars d ++ '|' :: ratChars e))) := by
  simp only [string_data_append, numToString, List.append_assoc]
  rfl

/-- C3 counterexample: two rows whose normalized tuples differ (descriptions
"A|B" vs "A", references "C" vs "B|C") but whose dedup keys coincide — the
`'|'`-join is not injective in the five fields. -/
theorem normalizer_key_counterexample :
    (parseTransaction [Cell.null, Cell.str "01/01/2024", Cell.str "A|B",
        Cell.null, Cell.num 0, Cell.num 0, Cell.null, Cell.str "C"]).description ≠
      (parseTransaction [Cell.null, Cell.str "01/01/2024", Cell.str "A",
        Cell.null, Cell.num 0, Cell.num 0, Cell.null, Cell.str "B|C"]).description ∧
    (parseTransaction [Cell.null, Cell.str "01/01/2024", Cell.str "A|B",
        Cell.null, Cell.num 0, Cell.num 0, Cell.null, Cell.str "C"]).key =
      (parseTransaction [Cell.null, Cell.str "01/01/2024", Cell.str "A",
        Cell.null, Cell.num 0, Cell.num 0, Cell.null, Cell.str "B|C"]).key := by
  decide

/-- C3 amended: `parseTransaction` is deterministic (a pure function:
identical rows give identical keys), and the key is injective in the five
canonical fields *provided* the three text-derived fields contain no `'|'`
(the join character): under that proviso, equal keys force equal
(date, description, reference, debit, credit). Without the proviso the
original claim fails (`normalizer_key_counterexample`). -/
theorem normalizer_key_amended :
    (∀ r1 r2 : List Cell, r1 = r2 →
      (parseTransaction r1).key = (parseTransaction r2).key) ∧
    (∀ r1 r2 : List Cell,
      pipeFree (parseTransaction r1).date →
      pipeFree (parseTransaction r1).description →
      pipeFree (parseTransaction r1).reference →
      pipeFree (parseTransaction r2).date →
      pipeFree (parseTransaction r2).description →
      pipeFree (parseTransaction r2).reference →
      (parseTransaction r1).key = (parseTransaction r2).key →
      (parseTransaction r1).date = (parseTransaction r2).date ∧
      (parseTransaction r1).description = (parseTransaction r2).description ∧
      (parseTransaction r1).reference = (parseTransaction r2).reference ∧
      (parseTransaction r1).debit = (parseTransaction r2).debit ∧
      (parseTransaction r1).credit = (parseTransaction r2).credit) := by
  constructor
  · intro r1 r2 h
    rw [h]
  · intro r1 r2 h1d h1s h1r h2d h2s h2r hkey
    have hdata := congrArg String.data hkey
    rw [show (parseTransaction r1).key = (parseTransaction r1).date ++ "|" ++
        (parseTransaction r1).description ++ "|" ++ (parseTransaction r1).reference ++
        "|" ++ numToString (parseTransaction r1).debit ++ "|" ++
        numToString (parseTransaction r1).credit from rfl,
      show (parseTransaction r2).key = (parseTransaction r2).date ++ "|" ++
        (parseTransaction r2).description ++ "|" ++ (parseTransaction r2).reference ++
        "|" ++ numToString (parseTransaction r2).debit ++ "|" ++
        numToString (parseTransaction r2).credit from rfl,
      key_data_eq, key_data_eq] at hdata
    obtain ⟨e1, rest1⟩ := append_sep_inj _ _ _ _ h1d h2d hdata
    obtain ⟨e2, rest2⟩ := append_sep_inj _ _ _ _ h1s h2s rest1
    obtain ⟨e3, rest3⟩ := append_sep_inj _ _ _ _ h1r h2r rest2
    obtain ⟨e4, e5⟩ := append_sep_inj _ _ _ _ ratChars_not_pipe ratChars_not_pipe rest3
    exact ⟨String.ext e1, String.ext e2, String.ext e3,
      ratChars_inj e4, ratChars_inj e5⟩

/-- Witness for `normalizer_key_amended`: the determinism half at the
"PAGO" row, and the injectivity half at the "PAGO" and "COBRO" rows (all
their text fields are `'|'`-free), whose keys are equal only if all five
fields agree — instantiated here with both rows equal. -/
theorem normalizer_key_amended_witness :
    (parseTransaction [Cell.null, Cell.str "01/01/2024", Cell.str "PAGO",
      Cell.null, Cell.num 100]).key =
      (parseTransaction [Cell.null, Cell.str "01/01/2024", Cell.str "PAGO",
        Cell.null, Cell.num 100]).key ∧
    (parseTransaction [Cell.null, Cell.str "01/01/2024", Cell.str "PAGO",
      Cell.null, Cell.num 100]).date =
      (parseTransaction [Cell.null, Cell.str "01/01/2024", Cell.str "PAGO",
        Cell.null, Cell.num 100]).date :=
  ⟨normalizer_key_amended.1 _ _ rfl,
    (normalizer_key_amended.2 _ _ (by decide) (by decide) (by decide) (by decide)
      (by decide) (by decide) rfl).1⟩
